import Mathlib

/-!
Verification of `src/notebooks/precession_model.py` (wzy_RedNoise).

The module has two components:

* `RedNoise_delay` — the timing-residual function: over an array of
  observation epochs `toas` it computes, elementwise,
  `k + a1*sin(Wp*(t - t0)) - a2*sin(2*Wp*(t - t0))` with `Wp = 2*pi/P`.
  We embed the epoch array as `List ℝ` and the elementwise numpy
  expression as a `List.map`.

* `RedNoise_delay_block` — a factory that builds five uniform-prior
  parameter objects named `name ++ "_t0"`, `name ++ "_P"`, `name ++ "_a1"`,
  `name ++ "_a2"`, `name ++ "_k"` and wraps the delay function into a
  named deterministic signal.  The external `enterprise` collaborators
  (`parameter.Uniform`, `deterministic_signals.Deterministic`) are records
  carrying exactly the data the factory hands them: bounds and names.

For the `P = 0` behaviour the real-valued embedding is inadequate (Lean
division by zero yields `0`, numpy yields `inf`), so a separate IEEE-style
value domain `NpFloat` (exact finite reals plus signed infinities and NaN,
abstracting rounding) mirrors numpy's special-value semantics, and the
delay expression is re-read over it as `RedNoise_delayF`.
-/

/-- The residual function of `src/notebooks/precession_model.py`
(`RedNoise_delay`): `Wp = 2*np.pi/P`, then elementwise over `toas` the
value `k + a1*np.sin(Wp*(toas-t0)) - a2*np.sin(2*Wp*(toas-t0))`. -/
noncomputable def RedNoise_delay (toas : List ℝ) (t0 P a1 a2 k : ℝ) : List ℝ :=
  let Wp := 2 * Real.pi / P
  toas.map (fun t => k + a1 * Real.sin (Wp * (t - t0)) - a2 * Real.sin (2 * Wp * (t - t0)))

/-- A uniform-prior parameter object, the data handed to the external
`parameter.Uniform(lower, upper)(pname)` factory: the support bounds and
the parameter's name. -/
structure UniformParam where
  lower : ℝ
  upper : ℝ
  pname : String

/-- A named deterministic signal, the data handed to the external
`deterministic_signals.Deterministic(fn, name)` constructor: the five
uniform-prior parameter objects bound into the delay function, and the
block's name. -/
structure DeterministicSignal where
  params : List UniformParam
  sname : String

/-- The factory `RedNoise_delay_block` of
`src/notebooks/precession_model.py`: builds the five uniform-prior
parameters `{name}_t0`, `{name}_P`, `{name}_a1`, `{name}_a2`, `{name}_k`
over the given bound pairs and wraps them, with `name`, into a
deterministic signal. -/
def RedNoise_delay_block (t0_lower t0_upper P_lower P_upper a1_lower a1_upper
    a2_lower a2_upper k_lower k_upper : ℝ) (name : String) : DeterministicSignal :=
  let t0_name := name ++ "_t0"
  let P_name := name ++ "_P"
  let a1_name := name ++ "_a1"
  let a2_name := name ++ "_a2"
  let k_name := name ++ "_k"
  { params := [⟨t0_lower, t0_upper, t0_name⟩, ⟨P_lower, P_upper, P_name⟩,
               ⟨a1_lower, a1_upper, a1_name⟩, ⟨a2_lower, a2_upper, a2_name⟩,
               ⟨k_lower, k_upper, k_name⟩],
    sname := name }

/-- `RedNoise_delay_block` applied at its Python default arguments:
`t0_lower=4600000000, t0_upper=6300000000, P_lower=432000000,
P_upper=4320000000, a1_lower=0.000001, a1_upper=0.001, a2_lower=0.000001,
a2_upper=0.001, k_lower=-0.001, k_upper=0.001, name='RedNoise'`. -/
def RedNoise_delay_block_default : DeterministicSignal :=
  RedNoise_delay_block 4600000000 6300000000 432000000 4320000000
    0.000001 0.001 0.000001 0.001 (-0.001) 0.001 "RedNoise"

/-- IEEE-754-style value domain of numpy floating point, abstracting
rounding: exact finite reals, the two signed infinities, and NaN. -/
inductive NpFloat where
  | fin : ℝ → NpFloat
  | posInf : NpFloat
  | negInf : NpFloat
  | nan : NpFloat

namespace NpFloat

/-- IEEE addition on the special-value domain. -/
noncomputable def add : NpFloat → NpFloat → NpFloat
  | nan, _ => nan
  | _, nan => nan
  | fin x, fin y => fin (x + y)
  | fin _, posInf => posInf
  | fin _, negInf => negInf
  | posInf, fin _ => posInf
  | negInf, fin _ => negInf
  | posInf, posInf => posInf
  | negInf, negInf => negInf
  | posInf, negInf => nan
  | negInf, posInf => nan

/-- IEEE negation on the special-value domain. -/
noncomputable def neg : NpFloat → NpFloat
  | fin x => fin (-x)
  | posInf => negInf
  | negInf => posInf
  | nan => nan

/-- IEEE subtraction, `a - b = a + (-b)`. -/
noncomputable def sub (a b : NpFloat) : NpFloat := a.add b.neg

/-- IEEE multiplication on the special-value domain. -/
noncomputable def mul : NpFloat → NpFloat → NpFloat
  | nan, _ => nan
  | _, nan => nan
  | fin x, fin y => fin (x * y)
  | fin x, posInf => if 0 < x then posInf else if x < 0 then negInf else nan
  | fin x, negInf => if 0 < x then negInf else if x < 0 then posInf else nan
  | posInf, fin y => if 0 < y then posInf else if y < 0 then negInf else nan
  | negInf, fin y => if 0 < y then negInf else if y < 0 then posInf else nan
  | posInf, posInf => posInf
  | posInf, negInf => negInf
  | negInf, posInf => negInf
  | negInf, negInf => posInf

/-- IEEE division on the special-value domain: a nonzero finite numerator
over zero gives a signed infinity, `0/0` gives NaN. -/
noncomputable def div : NpFloat → NpFloat → NpFloat
  | nan, _ => nan
  | _, nan => nan
  | fin x, fin y =>
      if y = 0 then (if 0 < x then posInf else if x < 0 then negInf else nan)
      else fin (x / y)
  | fin _, posInf => fin 0
  | fin _, negInf => fin 0
  | posInf, fin y => if 0 ≤ y then posInf else negInf
  | negInf, fin y => if 0 ≤ y then negInf else posInf
  | posInf, posInf => nan
  | posInf, negInf => nan
  | negInf, posInf => nan
  | negInf, negInf => nan

/-- `np.sin` on the special-value domain: finite on finite input, NaN on
infinities (numpy emits an invalid-value warning there) and on NaN. -/
noncomputable def sin : NpFloat → NpFloat
  | fin x => fin (Real.sin x)
  | _ => nan

end NpFloat

/-- The body of `RedNoise_delay` re-read over the numpy special-value
domain: `Wp = (2*np.pi)/P`, then elementwise
`k + a1*np.sin(Wp*(toas-t0)) - a2*np.sin(2*Wp*(toas-t0))`. -/
noncomputable def RedNoise_delayF (toas : List NpFloat) (t0 P a1 a2 k : NpFloat) :
    List NpFloat :=
  let Wp := ((NpFloat.fin 2).mul (NpFloat.fin Real.pi)).div P
  toas.map (fun t =>
    (k.add (a1.mul ((Wp.mul (t.sub t0)).sin))).sub
      (a2.mul ((((NpFloat.fin 2).mul Wp).mul (t.sub t0)).sin)))

/-- Unfolding lemma: the delay of a cons is the delay of the head consed on
the delay of the tail. -/
theorem RedNoise_delay_cons (t : ℝ) (ts : List ℝ) (t0 P a1 a2 k : ℝ) :
    RedNoise_delay (t :: ts) t0 P a1 a2 k =
      (k + a1 * Real.sin (2 * Real.pi / P * (t - t0))
          - a2 * Real.sin (2 * (2 * Real.pi / P) * (t - t0)))
        :: RedNoise_delay ts t0 P a1 a2 k := rfl

/-- C1: for every epoch sequence and scalars `t0, P, a1, a2, k` with `P`
nonzero, `RedNoise_delay` returns, for each epoch `t`, exactly
`k + a1*sin(Wp*(t - t0)) - a2*sin(2*Wp*(t - t0))` where `Wp = 2*pi/P` is
derived from `P`. -/
theorem RedNoise_delay_formula (toas : List ℝ) (t0 P a1 a2 k : ℝ) (hP : P ≠ 0) :
    RedNoise_delay toas t0 P a1 a2 k =
      toas.map (fun t =>
        k + a1 * Real.sin (2 * Real.pi / P * (t - t0))
          - a2 * Real.sin (2 * (2 * Real.pi / P) * (t - t0))) := rfl

/-- Witness for C1 at `toas = [0, 1]`, `t0 = 0`, `P = 1`, `a1 = a2 = k = 1`. -/
theorem RedNoise_delay_formula_witness :
    (1 : ℝ) ≠ 0 ∧
      RedNoise_delay [0, 1] 0 1 1 1 1 =
        ([0, 1] : List ℝ).map (fun t =>
          1 + 1 * Real.sin (2 * Real.pi / 1 * (t - 0))
            - 1 * Real.sin (2 * (2 * Real.pi / 1) * (t - 0))) :=
  ⟨one_ne_zero, RedNoise_delay_formula [0, 1] 0 1 1 1 1 one_ne_zero⟩

/-- C9: on an empty epoch sequence `RedNoise_delay` returns the empty
sequence, for every `t0, a1, a2, k` and every `P ≠ 0`. -/
theorem RedNoise_delay_empty (t0 P a1 a2 k : ℝ) (hP : P ≠ 0) :
    RedNoise_delay [] t0 P a1 a2 k = [] := rfl

/-- Witness for C9 at `t0 = 0`, `P = 1`, `a1 = a2 = k = 0`. -/
theorem RedNoise_delay_empty_witness :
    (1 : ℝ) ≠ 0 ∧ RedNoise_delay [] 0 1 0 0 0 = [] :=
  ⟨one_ne_zero, RedNoise_delay_empty 0 1 0 0 0 one_ne_zero⟩

/-- C6: with both amplitudes zero, `RedNoise_delay E t0 P 0 0 k` is the
constant sequence `k` repeated `E.length` times, for every `P ≠ 0`. -/
theorem RedNoise_delay_zero_amplitude (E : List ℝ) (t0 P k : ℝ) (hP : P ≠ 0) :
    RedNoise_delay E t0 P 0 0 k = List.replicate E.length k := by
  induction E with
  | nil => rfl
  | cons t ts ih =>
      rw [RedNoise_delay_cons, ih, List.length_cons, List.replicate_succ]
      congr 1
      ring

/-- Witness for C6 at `E = [0, 7]`, `t0 = 0`, `P = 1`, `k = 5`. -/
theorem RedNoise_delay_zero_amplitude_witness :
    (1 : ℝ) ≠ 0 ∧
      RedNoise_delay [0, 7] 0 1 0 0 5 = List.replicate ([0, 7] : List ℝ).length 5 :=
  ⟨one_ne_zero, RedNoise_delay_zero_amplitude [0, 7] 0 1 5 one_ne_zero⟩

/-- C5: periodicity in the epoch argument: for every `t0, a1, a2, k` and
every `P ≠ 0`, the delay at `t0 + P` equals the delay at `t0`. -/
theorem RedNoise_delay_periodic (t0 P a1 a2 k : ℝ) (hP : P ≠ 0) :
    RedNoise_delay [t0 + P] t0 P a1 a2 k = RedNoise_delay [t0] t0 P a1 a2 k := by
  have h1 : 2 * Real.pi / P * P = 2 * Real.pi := div_mul_cancel₀ _ hP
  have h2 : 2 * (2 * Real.pi / P) * P = 2 * Real.pi + 2 * Real.pi := by
    rw [mul_assoc, div_mul_cancel₀ _ hP, two_mul]
  simp [RedNoise_delay, h1, h2, Real.sin_add_two_pi, Real.sin_two_pi]

/-- Witness for C5 at `t0 = 0`, `P = 1`, `a1 = a2 = k = 1`. -/
theorem RedNoise_delay_periodic_witness :
    (1 : ℝ) ≠ 0 ∧
      RedNoise_delay [(0 : ℝ) + 1] 0 1 1 1 1 = RedNoise_delay [0] 0 1 1 1 1 :=
  ⟨one_ne_zero, RedNoise_delay_periodic 0 1 1 1 1 one_ne_zero⟩

/-- C7: offset linearity: the elementwise difference between the delays
with offset `k` and with offset `0` is the constant sequence `k`. -/
theorem RedNoise_delay_offset (E : List ℝ) (t0 P a1 a2 k : ℝ) (hP : P ≠ 0) :
    List.zipWith (fun x y => x - y) (RedNoise_delay E t0 P a1 a2 k)
        (RedNoise_delay E t0 P a1 a2 0) = List.replicate E.length k := by
  induction E with
  | nil => rfl
  | cons t ts ih =>
      rw [RedNoise_delay_cons, RedNoise_delay_cons, List.zipWith_cons_cons, ih,
        List.length_cons, List.replicate_succ]
      congr 1
      ring

/-- Witness for C7 at `E = [3]`, `t0 = 0`, `P = 1`, `a1 = a2 = 1`, `k = 2`. -/
theorem RedNoise_delay_offset_witness :
    (1 : ℝ) ≠ 0 ∧
      List.zipWith (fun x y => x - y) (RedNoise_delay [3] 0 1 1 1 2)
          (RedNoise_delay [3] 0 1 1 1 0) = List.replicate ([3] : List ℝ).length 2 :=
  ⟨one_ne_zero, RedNoise_delay_offset [3] 0 1 1 1 2 one_ne_zero⟩

/-- C10: odd symmetry about the reference epoch: the delay at `t0 + d` plus
the delay at `t0 - d` is `2*k`, for every displacement `d` and every `P ≠ 0`. -/
theorem RedNoise_delay_odd_symmetry (d t0 P a1 a2 k : ℝ) (hP : P ≠ 0) :
    List.zipWith (fun x y => x + y) (RedNoise_delay [t0 + d] t0 P a1 a2 k)
        (RedNoise_delay [t0 - d] t0 P a1 a2 k) = [2 * k] := by
  have e1 : t0 + d - t0 = d := add_sub_cancel_left t0 d
  have e2 : t0 - d - t0 = -d := by ring
  simp [RedNoise_delay, e1, e2, mul_neg, Real.sin_neg]
  ring

/-- Witness for C10 at `d = 1`, `t0 = 0`, `P = 1`, `a1 = a2 = k = 1`. -/
theorem RedNoise_delay_odd_symmetry_witness :
    (1 : ℝ) ≠ 0 ∧
      List.zipWith (fun x y => x + y) (RedNoise_delay [(0 : ℝ) + 1] 0 1 1 1 1)
          (RedNoise_delay [(0 : ℝ) - 1] 0 1 1 1 1) = [2 * 1] :=
  ⟨one_ne_zero, RedNoise_delay_odd_symmetry 1 0 1 1 1 1 one_ne_zero⟩

/-- C2: for every epoch sequence and every parameter tuple with `P ≠ 0`,
the output has the same length as the input, the `i`-th output delay is the
delay formula applied to the `i`-th input epoch, and every output element
is finite, rendered in the real-valued embedding as the explicit bound
`|x| ≤ |k| + |a1| + |a2|`. -/
theorem RedNoise_delay_shape (toas : List ℝ) (t0 P a1 a2 k : ℝ) (hP : P ≠ 0) :
    (RedNoise_delay toas t0 P a1 a2 k).length = toas.length ∧
    (∀ i : ℕ, (RedNoise_delay toas t0 P a1 a2 k)[i]? =
        (toas[i]?).map (fun t =>
          k + a1 * Real.sin (2 * Real.pi / P * (t - t0))
            - a2 * Real.sin (2 * (2 * Real.pi / P) * (t - t0)))) ∧
    ∀ x ∈ RedNoise_delay toas t0 P a1 a2 k, |x| ≤ |k| + |a1| + |a2| := by
  refine ⟨by simp [RedNoise_delay], fun i => by simp [RedNoise_delay], fun x hx => ?_⟩
  simp only [RedNoise_delay] at hx
  obtain ⟨t, ht, rfl⟩ := List.mem_map.mp hx
  have hs : ∀ y : ℝ, |Real.sin y| ≤ 1 := fun y =>
    abs_le.mpr ⟨Real.neg_one_le_sin y, Real.sin_le_one y⟩
  have h1 : |a1 * Real.sin (2 * Real.pi / P * (t - t0))| ≤ |a1| := by
    rw [abs_mul]
    exact mul_le_of_le_one_right (abs_nonneg _) (hs _)
  have h2 : |a2 * Real.sin (2 * (2 * Real.pi / P) * (t - t0))| ≤ |a2| := by
    rw [abs_mul]
    exact mul_le_of_le_one_right (abs_nonneg _) (hs _)
  have h3 := abs_sub (k + a1 * Real.sin (2 * Real.pi / P * (t - t0)))
    (a2 * Real.sin (2 * (2 * Real.pi / P) * (t - t0)))
  have h4 := abs_add k (a1 * Real.sin (2 * Real.pi / P * (t - t0)))
  linarith

/-- Witness for C2 at `toas = [0]`, `t0 = 0`, `P = 1`, `a1 = a2 = k = 1`. -/
theorem RedNoise_delay_shape_witness :
    (1 : ℝ) ≠ 0 ∧
      ((RedNoise_delay [0] 0 1 1 1 1).length = ([0] : List ℝ).length ∧
        (∀ i : ℕ, (RedNoise_delay [0] 0 1 1 1 1)[i]? =
            (([0] : List ℝ)[i]?).map (fun t =>
              1 + 1 * Real.sin (2 * Real.pi / 1 * (t - 0))
                - 1 * Real.sin (2 * (2 * Real.pi / 1) * (t - 0)))) ∧
        ∀ x ∈ RedNoise_delay [0] 0 1 1 1 1, |x| ≤ |(1 : ℝ)| + |(1 : ℝ)| + |(1 : ℝ)|) :=
  ⟨one_ne_zero, RedNoise_delay_shape [0] 0 1 1 1 1 one_ne_zero⟩

/-- C4: for every bound configuration and every name string, the builder
constructs exactly the five parameter names `name ++ "_t0"`, `name ++ "_P"`,
`name ++ "_a1"`, `name ++ "_a2"`, `name ++ "_k"`, and the name sets built
for the two distinct names `"A"` and `"B"` are pairwise disjoint. -/
theorem RedNoise_delay_block_names (t0l t0u Pl Pu a1l a1u a2l a2u kl ku : ℝ)
    (name : String) :
    (RedNoise_delay_block t0l t0u Pl Pu a1l a1u a2l a2u kl ku name).params.map
        UniformParam.pname =
      [name ++ "_t0", name ++ "_P", name ++ "_a1", name ++ "_a2", name ++ "_k"] ∧
    (RedNoise_delay_block t0l t0u Pl Pu a1l a1u a2l a2u kl ku name).params.length = 5 ∧
    ∀ s ∈ (RedNoise_delay_block 0 0 0 0 0 0 0 0 0 0 "A").params.map UniformParam.pname,
      s ∉ (RedNoise_delay_block 0 0 0 0 0 0 0 0 0 0 "B").params.map UniformParam.pname := by
  refine ⟨rfl, rfl, ?_⟩
  decide

/-- C8: the builder's default configuration: bound pairs
`t0 : [4.6e9, 6.3e9]`, `P : [4.32e8, 4.32e9]`, `a1 : [1e-6, 1e-3]`,
`a2 : [1e-6, 1e-3]`, `k : [-1e-3, 1e-3]`, and the name `"RedNoise"`. -/
theorem RedNoise_delay_block_default_config :
    RedNoise_delay_block_default.params =
      [⟨4.6e9, 6.3e9, "RedNoise_t0"⟩, ⟨4.32e8, 4.32e9, "RedNoise_P"⟩,
       ⟨1e-6, 1e-3, "RedNoise_a1"⟩, ⟨1e-6, 1e-3, "RedNoise_a2"⟩,
       ⟨-1e-3, 1e-3, "RedNoise_k"⟩] ∧
    RedNoise_delay_block_default.sname = "RedNoise" := by
  constructor
  · norm_num [RedNoise_delay_block_default, RedNoise_delay_block]
    exact ⟨rfl, rfl, rfl, rfl, rfl⟩
  · rfl

/-- Multiplying `+inf` by any finite value and taking `np.sin` yields NaN:
the product is `+inf`, `-inf`, or NaN according to the sign, and `np.sin`
is NaN on every non-finite value. -/
theorem NpFloat.sin_posInf_mul_fin (d : ℝ) :
    (NpFloat.posInf.mul (NpFloat.fin d)).sin = NpFloat.nan := by
  simp only [NpFloat.mul]
  split_ifs <;> simp [NpFloat.sin]

/-- The finite constant `2` times `+inf` is `+inf`. -/
theorem NpFloat.fin_two_mul_posInf :
    (NpFloat.fin 2).mul NpFloat.posInf = NpFloat.posInf := by
  simp only [NpFloat.mul]
  norm_num

/-- With an infinite angular frequency, one elementwise evaluation of the
delay expression at a finite epoch and finite parameters is NaN. -/
theorem NpFloat.delayF_elem_nan (x t0 a1 a2 k : ℝ) :
    ((NpFloat.fin k).add ((NpFloat.fin a1).mul
        ((NpFloat.posInf.mul ((NpFloat.fin x).sub (NpFloat.fin t0))).sin))).sub
      ((NpFloat.fin a2).mul
        ((((NpFloat.fin 2).mul NpFloat.posInf).mul
            ((NpFloat.fin x).sub (NpFloat.fin t0))).sin)) = NpFloat.nan := by
  have hsub : (NpFloat.fin x).sub (NpFloat.fin t0) = NpFloat.fin (x + -t0) := rfl
  rw [hsub, NpFloat.fin_two_mul_posInf, NpFloat.sin_posInf_mul_fin]
  simp [NpFloat.add, NpFloat.mul, NpFloat.sub, NpFloat.neg]

/-- C3: over the numpy special-value domain, with `P = 0` the angular
frequency `2*np.pi/P` evaluates to `+inf` (division of the positive finite
`2*pi` by zero), and the resulting NaN from `np.sin` of an infinite
argument propagates so that every output element is NaN; the function
itself contains no guard against `P = 0`. -/
theorem RedNoise_delayF_P_zero (ts : List ℝ) (t0 a1 a2 k : ℝ) :
    ((NpFloat.fin 2).mul (NpFloat.fin Real.pi)).div (NpFloat.fin 0) = NpFloat.posInf ∧
    RedNoise_delayF (ts.map NpFloat.fin) (NpFloat.fin t0) (NpFloat.fin 0)
        (NpFloat.fin a1) (NpFloat.fin a2) (NpFloat.fin k) =
      List.replicate (ts.map NpFloat.fin).length NpFloat.nan := by
  have hW : ((NpFloat.fin 2).mul (NpFloat.fin Real.pi)).div (NpFloat.fin 0) =
      NpFloat.posInf := by
    have hpi : (0 : ℝ) < 2 * Real.pi := by positivity
    simp [NpFloat.mul, NpFloat.div, hpi]
  refine ⟨hW, ?_⟩
  have hlen : (ts.map NpFloat.fin).length = ts.length := List.length_map _ _
  simp only [RedNoise_delayF, hW, List.map_map, hlen]
  rw [show ts.length = (List.map
      ((fun t => ((NpFloat.fin k).add ((NpFloat.fin a1).mul
          ((NpFloat.posInf.mul (t.sub (NpFloat.fin t0))).sin))).sub
        ((NpFloat.fin a2).mul ((((NpFloat.fin 2).mul NpFloat.posInf).mul
          (t.sub (NpFloat.fin t0))).sin))) ∘ NpFloat.fin) ts).length by simp]
  rw [List.eq_replicate_length]
  intro b hb
  obtain ⟨x, hx, rfl⟩ := List.mem_map.mp hb
  exact NpFloat.delayF_elem_nan x t0 a1 a2 k
